import Mathlib

/-!
# Verification of the bounded-queue / task-scheduler library

Shallow embedding of the TypeScript sources of `typescript-package/queue`:

* `elements.class.ts` — the capacity-checked `Elements` container (array state
  with a maximum `size`, `Infinity` by default);
* `queue.abstract.ts` — the FIFO `Queue` over `Elements` (note: this variant
  constructs its `Elements` *without* forwarding the queue size);
* the sized `Queue` variant (`part_008`), used by `TaskQueue`, which does
  forward the size to `Elements`;
* `stack.abstract.ts` — the LIFO `Stack`;
* `tasks.class.ts` (the `Processed`-enum version) — per-element outcome
  routing (`onSuccess` / `onFailure` / `onError`) and the enabled gate;
* `processing.class.ts` — the concurrency-limited asynchronous drain
  (`asyncRun` in its `default` and `race` modes), modelled as a small-step
  transition system whose nondeterminism is the settlement order;
* `task-queue.class.ts` — `TaskQueue.asyncRun` / `run` / `onCompleted`.

JavaScript machine integers do not matter here (all counters stay tiny), so
lengths and counters are `Nat`.  JavaScript truthiness is abstracted by a
parameter `truthy : α → Bool`; for `Int`-valued elements the JS rule for
numbers is `x ≠ 0`.  Fallible operations return `Except String` or pair the
unchanged state with an `Option String` error.
-/

namespace QueueSpec

/-- JS truthiness for number-valued elements: `0` is falsy, everything else is
truthy (`NaN` does not arise for integers). -/
def intTruthy (x : Int) : Bool := x ≠ 0

/-! ## Elements (`elements.class.ts`) -/

/-- Capacity of a container: `some n` is a finite maximum size, `none` is the
TS default `Infinity`. -/
def sizeExceeded (len : Nat) (size : Option Nat) : Bool :=
  match size with
  | none => false
  | some n => decide (n < len)

/-- The error message thrown by the `Elements` constructor
(`elements.class.ts:39`), with the interpolated numbers. -/
def capacityMsg (size len : Nat) : String :=
  "The `elements` size exceeds the maximum size " ++ toString size ++
    " by " ++ toString (len - size) ++ "."

/-- Model of the `Elements` constructor (`elements.class.ts:33-41`): keeps the batch when
it fits, otherwise throws the capacity error. -/
def elementsNew (batch : List α) (size : Option Nat) : Except String (List α) :=
  if sizeExceeded batch.length size then
    .error (capacityMsg (size.getD 0) batch.length)
  else
    .ok batch

/-- Model of `Elements.isFull` (`elements.class.ts:73-75`): strict equality
`size === length`; `Infinity === length` is always false. -/
def elementsIsFull (size : Option Nat) (len : Nat) : Bool :=
  match size with
  | none => false
  | some n => decide (n = len)

/-- Model of `Elements.append` (`elements.class.ts:49-53`): `#checkFull()` then append;
returns the unchanged list together with the error when full. -/
def elementsAppend (size : Option Nat) (l : List α) (e : α) :
    List α × Option String :=
  if elementsIsFull size l.length then
    (l, some "Elements array state is full.")
  else
    (l ++ [e], none)

/-! ## Queue (`queue.abstract.ts` and the sized variant `part_008`) -/

/-- Model of the `Queue` constructor of `src/src/lib/queue.abstract.ts:69-72`: stores the
size but builds `new Elements(elements)` WITHOUT forwarding it, so the
`Elements` capacity is `Infinity` and construction never fails. -/
def queueNew (size : Option Nat) (elements : List α) : Except String (List α) :=
  elementsNew elements none

/-- Model of the `Queue` constructor of the sized variant (`part_008:68-71`):
`new Elements(elements, size)`, so an oversized batch throws. -/
def queueSizedNew (size : Option Nat) (elements : List α) :
    Except String (List α) :=
  elementsNew elements size

/-- Model of the `TaskQueue` constructor (`task-queue.class.ts:67-74`): `super(size,
...elements)` into the sized `Queue` variant (its `extends Queue<Element,
Size>` matches the two-parameter `Queue` of `part_008`). -/
def taskQueueNew (concurrency : Nat) (size : Option Nat) (elements : List α) :
    Except String (List α) :=
  queueSizedNew size elements

/-- Modelled from the spec: `ArrayState.first` of the external
`@typescript-package/state` dependency; section 4.1 has `first()` return the
boundary element or "absent" if empty. -/
def arrayFirst (l : List α) : Option α := l.head?

/-- Modelled from the spec: `ArrayState.last`; "absent" if empty. -/
def arrayLast (l : List α) : Option α := l.getLast?

/-- Modelled from the spec: `ArrayState.remove`; section 4.1 makes removal at
an out-of-range index a safe no-op. -/
def arrayRemove (l : List α) (i : Nat) : List α := l.eraseIdx i

/-- Model of `Queue.dequeue` (`queue.abstract.ts:89-93`): read `first()`, `remove(0)`,
return the read element; on an empty queue this is `(none, [])` and no error
is raised. -/
def queueDequeue (l : List α) : Option α × List α :=
  (arrayFirst l, arrayRemove l 0)

/-- Model of `Queue.enqueue` (`queue.abstract.ts:101-107`): throws "Queue is full."
when `length === size`, otherwise appends through `Elements` (whose own
capacity is `Infinity` in this variant). -/
def queueEnqueue (size : Option Nat) (l : List α) (e : α) :
    List α × Option String :=
  if elementsIsFull size l.length then
    (l, some "Queue is full.")
  else
    elementsAppend none l e

/-- Model of `Queue.enqueue` of the sized variant (`part_008:99-105`): checks
`isFull()` and then appends through the size-carrying `Elements`. -/
def queueSizedEnqueue (size : Option Nat) (l : List α) (e : α) :
    List α × Option String :=
  if elementsIsFull size l.length then
    (l, some "Queue is full.")
  else
    elementsAppend size l e

/-- Model of `Stack.pop` (`stack.abstract.ts:98-102`): read `peek()` (the last
element), remove the last index only when `length > 0`, return the read
element; on an empty stack this is `(none, [])` and no error is raised. -/
def stackPop (l : List α) : Option α × List α :=
  (arrayLast l, if 0 < l.length then arrayRemove l (l.length - 1) else l)

/-! ## Outcome routing (`tasks.class.ts`, the `Processed`-enum version) -/

/-- Modelled from the spec: the `Processed` enum imported from
`../enum/processed.enum` is not in the source tree; spec section 6 gives
`Outcome ∈ {Success, Failure}`. -/
inductive Processed where
  | success
  | failure
deriving DecidableEq, Repr

/-- Result of one invocation of the user callback: it returns `void`
(`ret none`), a `Processed` value (`ret (some v)`), or throws/rejects. -/
inductive CbResult where
  | ret (v : Option Processed)
  | thrown
deriving DecidableEq, Repr

/-- Observable per-element events: the callback invocation itself and the
three outcome handlers `onSuccess` / `onFailure` / `onError`. -/
inductive EventKind where
  | call
  | success
  | failure
  | error
deriving DecidableEq, Repr

/-- The `finally` clause of `Tasks.asyncProcess` / `Tasks.process`
(`tasks.class.ts:426` and `:528`): `processed === Processed.Failure ?
onFailure?.(element) : onSuccess?.(element)`, applied to the current value of
the local `processed`. -/
def finallyRoute (v : Option Processed) : EventKind :=
  if v = some Processed.failure then EventKind.failure else EventKind.success

/-- The task body of `Tasks.asyncProcess` (`tasks.class.ts:416-430`): the
local `processed` starts as `Processed.Success` (line 417); `try` invokes the
callback and stores its result; `catch` fires `onError`; `finally` routes on
the current value of the local — which is still the initial `Processed.Success`
when the callback threw. -/
def taskBodyEvents (r : CbResult) : List EventKind :=
  match r with
  | .ret v => [EventKind.call, finallyRoute v]
  | .thrown => [EventKind.call, EventKind.error, finallyRoute (some Processed.success)]

/-- Model of JS `Set.prototype.add`: appends unless already a member (insertion order
is kept, duplicates are collapsed). -/
def setAdd [DecidableEq α] (l : List α) (e : α) : List α :=
  if e ∈ l then l else l ++ [e]

/-- Per-element effect of `Tasks.asyncProcess` (`tasks.class.ts:404-433`) once
enabled: the task body runs, and its `finally` adds the element to the
`#processed` set regardless of outcome (line 427).  The promise bookkeeping
(`#processing.add`) is covered by the drain transition systems below. -/
def tasksAsyncProcess [DecidableEq α] (cb : α → CbResult) (e : α)
    (processed : List α) : List α × List (EventKind × α) :=
  (setAdd processed e, (taskBodyEvents (cb e)).map (fun k => (k, e)))

/-- Model of `Tasks.process` (`tasks.class.ts:506-537`) once enabled: the
`if (element)` guard (line 519) skips falsy elements entirely — no callback,
no handler, no `#processed` insertion; otherwise the same try/catch/finally
routing runs synchronously and the element joins `#processed`. -/
def tasksProcess [DecidableEq α] (truthy : α → Bool) (cb : α → CbResult)
    (e : α) (processed : List α) : List α × List (EventKind × α) :=
  if truthy e then
    (setAdd processed e, (taskBodyEvents (cb e)).map (fun k => (k, e)))
  else
    (processed, [])

/-- Model of `Tasks.run` (`tasks.class.ts:549-565`) and `TaskQueue.run`
(`task-queue.class.ts:145-154`) once enabled: both call `Tasks.process` on
each element in order (`run` iterates the iterable; `TaskQueue.run` dequeues
while `length > 0`, which drains the backing list front to back).  Returns
the final `#processed` set and the concatenated event log. -/
def processAll [DecidableEq α] (truthy : α → Bool) (cb : α → CbResult) :
    List α → List α → List α × List (EventKind × α)
  | [], processed => (processed, [])
  | e :: rest, processed =>
    let step := tasksProcess truthy cb e processed
    let restRun := processAll truthy cb rest step.1
    (restRun.1, step.2 ++ restRun.2)

/-! ## The asynchronous drain of `Processing` (`processing.class.ts`) -/

/-- Scheduler state of `Processing.asyncRun` (`processing.class.ts:112-144`):
the not-yet-admitted input, the `#activeCount` counter, the in-flight
elements (the tasks of `super.state`, identified by their element), and the
`#processed` set. -/
structure PState (α : Type) where
  pending : List α
  active : Nat
  inflight : List α
  processed : List α
deriving DecidableEq, Repr

/-- The admission loop of the `default` method (`processing.class.ts:131-138`):
while `#activeCount < #concurrency`, take the next element from the iterator
and start `asyncProcess` on it, which synchronously increments `#activeCount`
(`processing.class.ts:198`) and registers the task before its first await. -/
def pAdmitGo (conc : Nat) : List α → Nat → List α → List α → PState α
  | [], a, f, p => ⟨[], a, f, p⟩
  | e :: rest, a, f, p =>
    if a < conc then pAdmitGo conc rest (a + 1) (f ++ [e]) p
    else ⟨e :: rest, a, f, p⟩

/-- The admission loop applied to a scheduler state. -/
def pAdmit (conc : Nat) (s : PState α) : PState α :=
  pAdmitGo conc s.pending s.active s.inflight s.processed

/-- One observable transition of the `default` drain: either an in-flight
task settles — its `finally` adds the element to `#processed`
(`processing.class.ts:210`), the task is removed and `#activeCount`
decremented (`processing.class.ts:223-227`) — or a pending refill
continuation (`.finally(() => process())`, `processing.class.ts:136`) runs
the admission loop. -/
inductive PStep [DecidableEq α] (conc : Nat) : PState α → PState α → Prop
  | settle (s : PState α) (i : Fin s.inflight.length) :
      PStep conc s ⟨s.pending, s.active - 1, s.inflight.eraseIdx i,
        setAdd s.processed (s.inflight.get i)⟩
  | refill (s : PState α) : PStep conc s (pAdmit conc s)

/-- States reachable during `Processing.asyncRun` (default method) on the
given input. -/
def PReachable [DecidableEq α] (conc : Nat) (elements : List α)
    (s : PState α) : Prop :=
  Relation.ReflTransGen (PStep conc) ⟨elements, 0, [], []⟩ s

/-- One observable transition of the `race` method
(`processing.class.ts:120-127`): the loop admits the next element only when
`#activeCount < #concurrency` (it first `await Promise.race`s otherwise, and
the decrement continuation of the settling task runs before the race resolution,
having been attached first); settlements may happen at any suspension
point. -/
inductive PRaceStep [DecidableEq α] (conc : Nat) : PState α → PState α → Prop
  | settle (s : PState α) (i : Fin s.inflight.length) :
      PRaceStep conc s ⟨s.pending, s.active - 1, s.inflight.eraseIdx i,
        setAdd s.processed (s.inflight.get i)⟩
  | admitOne (s : PState α) (e : α) (rest : List α) (hq : s.pending = e :: rest)
      (ha : s.active < conc) :
      PRaceStep conc s ⟨rest, s.active + 1, s.inflight ++ [e], s.processed⟩

/-- States reachable during `Processing.asyncRun` (race method) on the given
input. -/
def PRaceReachable [DecidableEq α] (conc : Nat) (elements : List α)
    (s : PState α) : Prop :=
  Relation.ReflTransGen (PRaceStep conc) ⟨elements, 0, [], []⟩ s

/-! ## The `TaskQueue` drain (`task-queue.class.ts`) -/

/-- Scheduler state of `TaskQueue.asyncRun` (`task-queue.class.ts:112-133`):
the backing queue, the `activeCount` of the internal `Processing` (the size
of its task set, incremented by `add` and decremented by `delete`), the
in-flight elements, the `#processed` set of `Tasks`, and two histories for
the ordering claims — the dequeued elements and the admitted elements, each
in order. -/
structure TQState (α : Type) where
  queue : List α
  active : Nat
  inflight : List α
  processed : List α
  dequeued : List α
  admitted : List α
deriving DecidableEq, Repr

/-- The admission loop of `TaskQueue.asyncRun`
(`task-queue.class.ts:118-127`): while `activeCount < concurrency &&
length > 0`, dequeue; the `if (element)` guard admits only truthy elements
(`asyncProcess` plus `processing.add`); falsy ones have already been removed
from the queue and are dropped. -/
def tqAdmitGo (truthy : α → Bool) (conc : Nat) :
    List α → Nat → List α → List α → List α → List α → TQState α
  | [], a, f, p, d, ad => ⟨[], a, f, p, d, ad⟩
  | e :: rest, a, f, p, d, ad =>
    if a < conc then
      if truthy e then
        tqAdmitGo truthy conc rest (a + 1) (f ++ [e]) p (d ++ [e]) (ad ++ [e])
      else
        tqAdmitGo truthy conc rest a f p (d ++ [e]) ad
    else ⟨e :: rest, a, f, p, d, ad⟩

/-- The admission loop applied to a `TaskQueue` scheduler state. -/
def tqAdmit (truthy : α → Bool) (conc : Nat) (s : TQState α) : TQState α :=
  tqAdmitGo truthy conc s.queue s.active s.inflight s.processed s.dequeued
    s.admitted

/-- One observable transition of `TaskQueue.asyncRun`: a settlement (the task
body `finally` adds the element to `#processed`, then
`#tasks.processing.delete(task)` removes the task, decrementing
`activeCount`), or a pending refill continuation
(`.finally(() => (this.#tasks.processing.delete(task), process()))`,
`task-queue.class.ts:124`) runs the admission loop. -/
inductive TQStep [DecidableEq α] (truthy : α → Bool) (conc : Nat) :
    TQState α → TQState α → Prop
  | settle (s : TQState α) (i : Fin s.inflight.length) :
      TQStep truthy conc s ⟨s.queue, s.active - 1, s.inflight.eraseIdx i,
        setAdd s.processed (s.inflight.get i), s.dequeued, s.admitted⟩
  | refill (s : TQState α) : TQStep truthy conc s (tqAdmit truthy conc s)

/-- The state a `TaskQueue` starts from: the constructor seed, nothing
dequeued, admitted, in flight or processed. -/
def tqInit (seed : List α) : TQState α := ⟨seed, 0, [], [], [], []⟩

/-- States reachable during `TaskQueue.asyncRun` on the given seed. -/
def TQReachable [DecidableEq α] (truthy : α → Bool) (conc : Nat)
    (seed : List α) (s : TQState α) : Prop :=
  Relation.ReflTransGen (TQStep truthy conc) (tqInit seed) s

/-- Completion: `asyncRun` resolves only once the whole `.finally` chain has run: every
admitted task has settled (the in-flight set is empty) and the last refill
found nothing more to take in (the state is a fixpoint of the admission
loop). -/
def tqCompleted [DecidableEq α] (truthy : α → Bool) (conc : Nat)
    (s : TQState α) : Prop :=
  s.inflight = [] ∧ tqAdmit truthy conc s = s

/-- The inductive invariant of the `TaskQueue.asyncRun` transition system,
relative to the constructor seed: `activeCount` counts the in-flight tasks
and respects the concurrency cap; the dequeue history plus the remaining
queue is the seed; the admission history is exactly the truthy part of the
dequeue history, in order; only truthy elements are ever in flight or
processed; and (for duplicate-free seeds) the processed set plus the
in-flight elements is a permutation of the admission history. -/
def TQInv [DecidableEq α] (truthy : α → Bool) (conc : Nat) (seed : List α)
    (s : TQState α) : Prop :=
  s.active = s.inflight.length ∧
  s.active ≤ conc ∧
  s.dequeued ++ s.queue = seed ∧
  s.admitted = s.dequeued.filter truthy ∧
  (∀ e ∈ s.inflight, truthy e = true) ∧
  (∀ e ∈ s.processed, truthy e = true) ∧
  (seed.Nodup → (s.processed ++ s.inflight).Perm s.admitted)

/-! ## The enabled gate of `Tasks` (`tasks.class.ts`) -/

/-- The `Ability` superclass gate (enabled / disabled) together with the
`#processed` set of `Tasks`. -/
structure TasksState (α : Type) where
  enabled : Bool
  processed : List α
deriving DecidableEq, Repr

/-- Error thrown by `Tasks.process` when disabled (`tasks.class.ts:514`). -/
def processDisabledMsg : String :=
  "Enable the functionality to use the `process()` method."

/-- Error thrown by `Tasks.run` when disabled (`tasks.class.ts:557`). -/
def runDisabledMsg : String :=
  "Enable the functionality to use the `run()` method."

/-- Error thrown by `Tasks.asyncProcess` when disabled
(`tasks.class.ts:412`). -/
def asyncProcessDisabledMsg : String :=
  "Enable the functionality to use the `asyncProcess()` method."

/-- Error thrown by `Tasks.asyncRun` when disabled (`tasks.class.ts:456`). -/
def asyncRunDisabledMsg : String :=
  "Enable the functionality to use the `asyncRun()` method."

/-- Model of `Tasks.process` behind its gate (`tasks.class.ts:513-515`): when disabled
it throws before touching any state or invoking any callback. -/
def tasksProcessM [DecidableEq α] (truthy : α → Bool) (cb : α → CbResult)
    (s : TasksState α) (e : α) :
    TasksState α × Except String (List (EventKind × α)) :=
  if s.enabled = false then (s, .error processDisabledMsg)
  else
    let r := tasksProcess truthy cb e s.processed
    (⟨s.enabled, r.1⟩, .ok r.2)

/-- Model of `Tasks.run` behind its gate (`tasks.class.ts:556-558`). -/
def tasksRunM [DecidableEq α] (truthy : α → Bool) (cb : α → CbResult)
    (s : TasksState α) (elements : List α) :
    TasksState α × Except String (List (EventKind × α)) :=
  if s.enabled = false then (s, .error runDisabledMsg)
  else
    let r := processAll truthy cb elements s.processed
    (⟨s.enabled, r.1⟩, .ok r.2)

/-- Model of `Tasks.asyncProcess` behind its gate (`tasks.class.ts:411-413`). -/
def tasksAsyncProcessM [DecidableEq α] (cb : α → CbResult) (s : TasksState α)
    (e : α) : TasksState α × Except String (List (EventKind × α)) :=
  if s.enabled = false then (s, .error asyncProcessDisabledMsg)
  else
    let r := tasksAsyncProcess cb e s.processed
    (⟨s.enabled, r.1⟩, .ok r.2)

/-- Model of `Tasks.asyncRun` behind its gate (`tasks.class.ts:455-457`): when
disabled it throws before any admission; when enabled its synchronous prefix
is the first run of the admission loop of the `default` method. -/
def tasksAsyncRunM [DecidableEq α] (conc : Nat) (s : TasksState α)
    (elements : List α) : TasksState α × Except String (PState α) :=
  if s.enabled = false then (s, .error asyncRunDisabledMsg)
  else (s, .ok (pAdmit conc ⟨elements, 0, [], s.processed⟩))

/-! ## `TaskQueue.onCompleted` (`task-queue.class.ts:92-100`) -/

/-- Outcome of one `setInterval` tick of `onCompleted`. -/
inductive TickOutcome (α : Type) where
  | resolved (value : List α)
  | poll
  | cancelled
deriving DecidableEq, Repr

/-- One tick of `TaskQueue.onCompleted` (`task-queue.class.ts:93-99`): while
`#tasks.processing.isActive()` it resolves with the literal `[]` — the
source carries `// TODO: this.#tasks.processed` — as soon as the queue
length is 0, and keeps polling otherwise; when processing is not active it
clears the interval, after which the promise can never resolve. -/
def onCompletedTick (α : Type) (isActive : Bool) (queueLength : Nat) :
    TickOutcome α :=
  if isActive then
    if queueLength = 0 then .resolved [] else .poll
  else .cancelled

/-- The outcome handlers among an event list (everything except the callback
invocation itself). -/
def handlerKinds (evs : List (EventKind × α)) : List EventKind :=
  (evs.map Prod.fst).filter (fun k => k ≠ EventKind.call)

/-! ## Theorems for the container claims (C4, C5, C6) -/

theorem elementsIsFull_none (len : Nat) : elementsIsFull none len = false := rfl

/-- C4 counterexample: the claim says every Queue built on `Elements` fails
with `CapacityExceeded` when the initial batch exceeds the capacity, but the
`Queue` constructor of `src/src/lib/queue.abstract.ts` does not forward its
size to `Elements`, so `Queue(capacity 1, batch [7, 8])` constructs
successfully. -/
theorem queue_construction_unsized_no_capacity_check :
    queueNew (some 1) [(7 : Int), 8] = Except.ok [7, 8] := rfl

/-- C4 (amended): constructing `Elements`, the sized `Queue` variant, or
`TaskQueue` with a batch larger than the capacity fails with the capacity
error; with a batch of at most the capacity they succeed and the stored state
equals the batch; the unsized `Queue` of `src/src/lib/queue.abstract.ts`
succeeds with the batch regardless of its size. -/
theorem construction_capacity_checked (c n : Nat) (batch : List α) :
    (n < batch.length →
      elementsNew batch (some n) = .error (capacityMsg n batch.length) ∧
      queueSizedNew (some n) batch = .error (capacityMsg n batch.length) ∧
      taskQueueNew c (some n) batch = .error (capacityMsg n batch.length)) ∧
    (batch.length ≤ n →
      elementsNew batch (some n) = .ok batch ∧
      queueSizedNew (some n) batch = .ok batch ∧
      taskQueueNew c (some n) batch = .ok batch) ∧
    queueNew (some n) batch = .ok batch := by
  refine ⟨fun h => ?_, fun h => ?_, ?_⟩
  · have hx : sizeExceeded batch.length (some n) = true := by
      simp [sizeExceeded, h]
    simp [elementsNew, queueSizedNew, taskQueueNew, hx]
  · have hx : sizeExceeded batch.length (some n) = false := by
      simp [sizeExceeded]; omega
    simp [elementsNew, queueSizedNew, taskQueueNew, hx]
  · simp [queueNew, elementsNew, sizeExceeded]

/-- C4 witness for `construction_capacity_checked`: capacity 2 with an
oversized batch of 3 and a fitting batch handled concretely. -/
theorem construction_capacity_checked_witness :
    (2 < ([(1 : Int), 2, 3] : List Int).length →
      elementsNew [(1 : Int), 2, 3] (some 2) = .error (capacityMsg 2 3) ∧
      queueSizedNew (some 2) [(1 : Int), 2, 3] = .error (capacityMsg 2 3) ∧
      taskQueueNew 1 (some 2) [(1 : Int), 2, 3] = .error (capacityMsg 2 3)) ∧
    (([(1 : Int), 2, 3] : List Int).length ≤ 2 →
      elementsNew [(1 : Int), 2, 3] (some 2) = .ok [(1 : Int), 2, 3] ∧
      queueSizedNew (some 2) [(1 : Int), 2, 3] = .ok [(1 : Int), 2, 3] ∧
      taskQueueNew 1 (some 2) [(1 : Int), 2, 3] = .ok [(1 : Int), 2, 3]) ∧
    queueNew (some 2) [(1 : Int), 2, 3] = .ok [(1 : Int), 2, 3] :=
  construction_capacity_checked 1 2 [(1 : Int), 2, 3]

/-- C5: `enqueue` on a bounded queue whose length equals its capacity fails
with the named "Queue is full." error in both `Queue` variants and leaves the
contents unchanged; `dequeue` on an empty queue and `pop` on an empty stack
return `none` without raising an error. -/
theorem queue_full_and_empty_boundaries (n : Nat) (l : List α) (e : α)
    (hfull : l.length = n) :
    queueEnqueue (some n) l e = (l, some "Queue is full.") ∧
    queueSizedEnqueue (some n) l e = (l, some "Queue is full.") ∧
    queueDequeue ([] : List α) = (none, []) ∧
    stackPop ([] : List α) = (none, []) := by
  have hx : elementsIsFull (some n) l.length = true := by
    simp [elementsIsFull, hfull]
  refine ⟨?_, ?_, ?_, ?_⟩
  · simp [queueEnqueue, hx]
  · simp [queueSizedEnqueue, hx]
  · simp [queueDequeue, arrayFirst, arrayRemove]
  · simp [stackPop, arrayLast]

/-- C5 witness for `queue_full_and_empty_boundaries`: capacity 3 with the 3
items `[1, 2, 3]` present. -/
theorem queue_full_and_empty_boundaries_witness :
    ([(1 : Int), 2, 3] : List Int).length = 3 ∧
    (queueEnqueue (some 3) [(1 : Int), 2, 3] 4 =
        ([(1 : Int), 2, 3], some "Queue is full.") ∧
      queueSizedEnqueue (some 3) [(1 : Int), 2, 3] 4 =
        ([(1 : Int), 2, 3], some "Queue is full.") ∧
      queueDequeue ([] : List Int) = (none, []) ∧
      stackPop ([] : List Int) = (none, [])) :=
  ⟨by decide, queue_full_and_empty_boundaries 3 [(1 : Int), 2, 3] 4 (by decide)⟩

/-- C6: on a non-full queue `enqueue` appends at the tail and increments the
length by 1, and on a non-empty queue `dequeue` removes and returns the head
and decrements the length by 1. -/
theorem queue_fifo_enqueue_dequeue (n : Nat) (l : List α) (e : α)
    (hnotfull : l.length ≠ n) (x : α) (xs : List α) :
    queueEnqueue (some n) l e = (l ++ [e], none) ∧
    (l ++ [e]).length = l.length + 1 ∧
    queueDequeue (x :: xs) = (some x, xs) ∧
    xs.length = (x :: xs).length - 1 := by
  have hx : elementsIsFull (some n) l.length = false := by
    simp [elementsIsFull]; omega
  refine ⟨?_, by simp, ?_, by simp⟩
  · simp [queueEnqueue, hx, elementsAppend, elementsIsFull_none]
  · simp [queueDequeue, arrayFirst, arrayRemove]

/-- C6 witness for `queue_fifo_enqueue_dequeue`: the spec scenario
`Queue(capacity 10, items [1,2,3])`: `enqueue(4)` gives `[1,2,3,4]` of
length 4, and `dequeue()` on that queue returns 1 leaving `[2,3,4]` of
length 3. -/
theorem queue_fifo_enqueue_dequeue_witness :
    ([(1 : Int), 2, 3] : List Int).length ≠ 10 ∧
    (queueEnqueue (some 10) [(1 : Int), 2, 3] 4 = ([1, 2, 3, 4], none) ∧
      ([(1 : Int), 2, 3] ++ [4]).length = ([(1 : Int), 2, 3] : List Int).length + 1 ∧
      queueDequeue [(1 : Int), 2, 3, 4] = (some 1, [2, 3, 4]) ∧
      ([(2 : Int), 3, 4] : List Int).length = ([(1 : Int), 2, 3, 4] : List Int).length - 1) :=
  ⟨by decide, queue_fifo_enqueue_dequeue 10 [(1 : Int), 2, 3] 4 (by decide) 1 [2, 3, 4]⟩

/-! ## Theorems for outcome routing, the gate and onCompleted (C1, C9, C8) -/

theorem handlerKinds_asyncProcess [DecidableEq α] (cb : α → CbResult) (e : α)
    (p : List α) :
    handlerKinds (tasksAsyncProcess cb e p).2 =
      (taskBodyEvents (cb e)).filter (fun k => k ≠ EventKind.call) := by
  have hfst : (Prod.fst ∘ fun k : EventKind => (k, e)) = id := rfl
  simp [tasksAsyncProcess, handlerKinds, List.map_map, hfst]

/-- C1 counterexample: for a throwing operation on element `0`, the task body
of `Tasks.asyncProcess` fires `onError` (in `catch`) and then also
`onSuccess` (in `finally`, because the local `processed` still holds its
initial `Processed.Success`), so the number of handlers fired is not 1 and
`onError` is not exclusive of `onSuccess`. -/
theorem tasks_throwing_fires_onError_and_onSuccess :
    handlerKinds ((tasksAsyncProcess (fun _ : Int => CbResult.thrown) 0 []).2)
        = [EventKind.error, EventKind.success] ∧
    (handlerKinds ((tasksAsyncProcess (fun _ : Int => CbResult.thrown) 0 []).2)).length
        ≠ 1 := by
  decide

/-- C1 (amended): when the operation completes without throwing, exactly one
of the three handlers fires and it is never `onError` (`onFailure` exactly
when the callback returned `Processed.Failure`, otherwise `onSuccess`); when
the operation throws, `onError` fires followed by `onSuccess` — `onError` is
mutually exclusive with `onFailure` but not with `onSuccess`.  On truthy
elements `Tasks.process` routes identically to `Tasks.asyncProcess`. -/
theorem tasks_outcome_routing [DecidableEq α] (truthy : α → Bool)
    (cb : α → CbResult) (e : α) (p : List α) :
    (cb e ≠ CbResult.thrown →
      (handlerKinds (tasksAsyncProcess cb e p).2).length = 1 ∧
      EventKind.error ∉ handlerKinds (tasksAsyncProcess cb e p).2) ∧
    (cb e = CbResult.thrown →
      handlerKinds (tasksAsyncProcess cb e p).2
        = [EventKind.error, EventKind.success]) ∧
    (EventKind.failure ∈ handlerKinds (tasksAsyncProcess cb e p).2 ↔
      cb e = CbResult.ret (some Processed.failure)) ∧
    (truthy e = true →
      tasksProcess truthy cb e p = tasksAsyncProcess cb e p) := by
  refine ⟨?_, ?_, ?_, ?_⟩
  · intro hne
    rw [handlerKinds_asyncProcess]
    cases hcb : cb e with
    | ret v =>
      rcases v with _ | pv
      · decide
      · cases pv <;> decide
    | thrown => exact absurd hcb hne
  · intro hth
    rw [handlerKinds_asyncProcess, hth]
    decide
  · rw [handlerKinds_asyncProcess]
    cases hcb : cb e with
    | ret v =>
      rcases v with _ | pv
      · simp [taskBodyEvents, finallyRoute]
      · cases pv <;> simp [taskBodyEvents, finallyRoute]
    | thrown => simp [taskBodyEvents, finallyRoute]
  · intro htr
    simp [tasksProcess, tasksAsyncProcess, htr]

/-- C1 witness for `tasks_outcome_routing`: a callback returning
`Processed.Failure` on the truthy element `5` fires exactly one handler,
namely `onFailure`, with identical routing in the synchronous
`Tasks.process`. -/
theorem tasks_outcome_routing_witness :
    (handlerKinds (tasksAsyncProcess
        (fun _ : Int => CbResult.ret (some Processed.failure)) 5 []).2).length = 1 ∧
    EventKind.failure ∈ handlerKinds (tasksAsyncProcess
        (fun _ : Int => CbResult.ret (some Processed.failure)) 5 []).2 ∧
    tasksProcess intTruthy (fun _ : Int => CbResult.ret (some Processed.failure)) 5 []
      = tasksAsyncProcess (fun _ : Int => CbResult.ret (some Processed.failure)) 5 [] :=
  ⟨((tasks_outcome_routing intTruthy
      (fun _ : Int => CbResult.ret (some Processed.failure)) 5 []).1 (by decide)).1,
   (tasks_outcome_routing intTruthy
      (fun _ : Int => CbResult.ret (some Processed.failure)) 5 []).2.2.1.mpr (by decide),
   (tasks_outcome_routing intTruthy
      (fun _ : Int => CbResult.ret (some Processed.failure)) 5 []).2.2.2 (by decide)⟩

/-- C9: with the gate off, every `Tasks` entry point (`process`, `run`,
`asyncProcess`, `asyncRun`) fails with its `Disabled` error, leaves the state
untouched, invokes no callback and performs no admission. -/
theorem tasks_disabled_gate [DecidableEq α] (truthy : α → Bool)
    (cb : α → CbResult) (conc : Nat) (s : TasksState α) (e : α)
    (elements : List α) (hdis : s.enabled = false) :
    tasksProcessM truthy cb s e = (s, .error processDisabledMsg) ∧
    tasksRunM truthy cb s elements = (s, .error runDisabledMsg) ∧
    tasksAsyncProcessM cb s e = (s, .error asyncProcessDisabledMsg) ∧
    tasksAsyncRunM conc s elements = (s, .error asyncRunDisabledMsg) := by
  simp [tasksProcessM, tasksRunM, tasksAsyncProcessM, tasksAsyncRunM, hdis]

/-- C9 witness for `tasks_disabled_gate`: a disabled `Tasks` with one already
processed element rejects all four entry points unchanged. -/
theorem tasks_disabled_gate_witness :
    (⟨false, [(9 : Int)]⟩ : TasksState Int).enabled = false ∧
    (tasksProcessM intTruthy (fun _ => CbResult.ret none) ⟨false, [(9 : Int)]⟩ 0
        = (⟨false, [(9 : Int)]⟩, .error processDisabledMsg) ∧
      tasksRunM intTruthy (fun _ => CbResult.ret none) ⟨false, [(9 : Int)]⟩ [1, 2]
        = (⟨false, [(9 : Int)]⟩, .error runDisabledMsg) ∧
      tasksAsyncProcessM (fun _ => CbResult.ret none) ⟨false, [(9 : Int)]⟩ 0
        = (⟨false, [(9 : Int)]⟩, .error asyncProcessDisabledMsg) ∧
      tasksAsyncRunM 3 (⟨false, [(9 : Int)]⟩ : TasksState Int) [1, 2]
        = (⟨false, [(9 : Int)]⟩, .error asyncRunDisabledMsg)) :=
  ⟨rfl, tasks_disabled_gate intTruthy (fun _ => CbResult.ret none) 3
    ⟨false, [(9 : Int)]⟩ 0 [1, 2] rfl⟩

/-- C8 (code bug): at the claimed completion point — queue empty and
`activeCount` 0, hence `isActive()` false — the `onCompleted` interval tick
clears the interval without resolving, so the promise never resolves there;
and in the state where it does resolve (still active, queue empty) the value
is the literal `[]` (the source line carries
`// TODO: this.#tasks.processed`), not the processed set — e.g. not `[1]`
after processing element 1. -/
theorem taskQueue_onCompleted_wrong_resolution :
    onCompletedTick Int false 0 = TickOutcome.cancelled ∧
    onCompletedTick Int true 0 = TickOutcome.resolved [] ∧
    ([] : List Int) ≠ [1] := by
  decide

/-! ## Invariants of the `Processing` drain (C3) -/

theorem pAdmitGo_active_eq (conc : Nat) (q : List α) (a : Nat) (f p : List α)
    (h : a = f.length) :
    (pAdmitGo conc q a f p).active = (pAdmitGo conc q a f p).inflight.length := by
  induction q generalizing a f with
  | nil => simpa [pAdmitGo] using h
  | cons e rest ih =>
    by_cases hc : a < conc
    · simp only [pAdmitGo, if_pos hc]
      exact ih (a + 1) (f ++ [e]) (by simp [h])
    · simpa [pAdmitGo, if_neg hc] using h

theorem pAdmitGo_active_le (conc : Nat) (q : List α) (a : Nat) (f p : List α)
    (h : a ≤ conc) :
    (pAdmitGo conc q a f p).active ≤ conc := by
  induction q generalizing a f with
  | nil => simpa [pAdmitGo] using h
  | cons e rest ih =>
    by_cases hc : a < conc
    · simp only [pAdmitGo, if_pos hc]
      exact ih (a + 1) (f ++ [e]) hc
    · simpa [pAdmitGo, if_neg hc] using h

theorem settle_active_eq {active : Nat} {f : List α} (i : Fin f.length)
    (h : active = f.length) :
    active - 1 = (f.eraseIdx i).length := by
  rw [List.length_eraseIdx]
  simp [i.isLt, h]

theorem pStep_inv [DecidableEq α] {conc : Nat} {s t : PState α}
    (hstep : PStep conc s t) (h1 : s.active = s.inflight.length)
    (h2 : s.active ≤ conc) :
    t.active = t.inflight.length ∧ t.active ≤ conc := by
  cases hstep with
  | settle i =>
    exact ⟨settle_active_eq i h1, le_trans (Nat.sub_le _ _) h2⟩
  | refill =>
    exact ⟨pAdmitGo_active_eq _ _ _ _ _ h1, pAdmitGo_active_le _ _ _ _ _ h2⟩

theorem pReachable_inv [DecidableEq α] {conc : Nat} {elements : List α}
    {s : PState α} (h : PReachable conc elements s) :
    s.active = s.inflight.length ∧ s.active ≤ conc := by
  induction h with
  | refl => exact ⟨rfl, Nat.zero_le conc⟩
  | tail _ hstep ih => exact pStep_inv hstep ih.1 ih.2

theorem pRaceStep_inv [DecidableEq α] {conc : Nat} {s t : PState α}
    (hstep : PRaceStep conc s t) (h1 : s.active = s.inflight.length)
    (h2 : s.active ≤ conc) :
    t.active = t.inflight.length ∧ t.active ≤ conc := by
  cases hstep with
  | settle i =>
    exact ⟨settle_active_eq i h1, le_trans (Nat.sub_le _ _) h2⟩
  | admitOne e rest hq ha =>
    exact ⟨by simp [h1], ha⟩

theorem pRaceReachable_inv [DecidableEq α] {conc : Nat} {elements : List α}
    {s : PState α} (h : PRaceReachable conc elements s) :
    s.active = s.inflight.length ∧ s.active ≤ conc := by
  induction h with
  | refl => exact ⟨rfl, Nat.zero_le conc⟩
  | tail _ hstep ih => exact pRaceStep_inv hstep ih.1 ih.2

/-! ## Invariants of the `TaskQueue` drain (C2, C7, C10) -/

theorem mem_setAdd [DecidableEq α] {l : List α} {e x : α} :
    x ∈ setAdd l e ↔ x ∈ l ∨ x = e := by
  by_cases he : e ∈ l
  · simp only [setAdd, if_pos he]
    constructor
    · exact Or.inl
    · rintro (hx | rfl)
      · exact hx
      · exact he
  · simp [setAdd, if_neg he]

theorem get_cons_eraseIdx_perm (l : List α) (i : Fin l.length) :
    (l.get i :: l.eraseIdx i).Perm l := by
  induction l with
  | nil => exact i.elim0
  | cons x xs ih =>
    rcases i with ⟨n, hn⟩
    cases n with
    | zero => simp [List.eraseIdx]
    | succ m =>
      have hm : m < xs.length := by simpa using hn
      have hswap : ((x :: xs).get ⟨m + 1, hn⟩ :: (x :: xs).eraseIdx (m + 1)).Perm
          (x :: (xs.get ⟨m, hm⟩ :: xs.eraseIdx m)) :=
        List.Perm.swap x (xs.get ⟨m, hm⟩) (xs.eraseIdx m)
      exact hswap.trans ((ih ⟨m, hm⟩).cons x)

theorem tqAdmitGo_processed (truthy : α → Bool) (conc : Nat) (q : List α)
    (a : Nat) (f p d ad : List α) :
    (tqAdmitGo truthy conc q a f p d ad).processed = p := by
  induction q generalizing a f d ad with
  | nil => rfl
  | cons e rest ih =>
    by_cases hc : a < conc
    · by_cases ht : truthy e = true
      · simp only [tqAdmitGo, if_pos hc, if_pos ht]
        exact ih _ _ _ _
      · simp only [tqAdmitGo, if_pos hc, if_neg ht]
        exact ih _ _ _ _
    · simp only [tqAdmitGo, if_neg hc]

theorem tqAdmitGo_active_eq (truthy : α → Bool) (conc : Nat) (q : List α)
    (a : Nat) (f p d ad : List α) (h : a = f.length) :
    (tqAdmitGo truthy conc q a f p d ad).active
      = (tqAdmitGo truthy conc q a f p d ad).inflight.length := by
  induction q generalizing a f d ad with
  | nil => simpa using h
  | cons e rest ih =>
    by_cases hc : a < conc
    · by_cases ht : truthy e = true
      · simp only [tqAdmitGo, if_pos hc, if_pos ht]
        exact ih _ _ _ _ (by simp [h])
      · simp only [tqAdmitGo, if_pos hc, if_neg ht]
        exact ih _ _ _ _ h
    · simp only [tqAdmitGo, if_neg hc]
      exact h

theorem tqAdmitGo_active_le (truthy : α → Bool) (conc : Nat) (q : List α)
    (a : Nat) (f p d ad : List α) (h : a ≤ conc) :
    (tqAdmitGo truthy conc q a f p d ad).active ≤ conc := by
  induction q generalizing a f d ad with
  | nil => simpa using h
  | cons e rest ih =>
    by_cases hc : a < conc
    · by_cases ht : truthy e = true
      · simp only [tqAdmitGo, if_pos hc, if_pos ht]
        exact ih _ _ _ _ hc
      · simp only [tqAdmitGo, if_pos hc, if_neg ht]
        exact ih _ _ _ _ h
    · simp only [tqAdmitGo, if_neg hc]
      exact h

theorem tqAdmitGo_dequeued_queue (truthy : α → Bool) (conc : Nat) (q : List α)
    (a : Nat) (f p d ad : List α) :
    (tqAdmitGo truthy conc q a f p d ad).dequeued
        ++ (tqAdmitGo truthy conc q a f p d ad).queue = d ++ q := by
  induction q generalizing a f d ad with
  | nil => simp [tqAdmitGo]
  | cons e rest ih =>
    by_cases hc : a < conc
    · by_cases ht : truthy e = true
      · simp only [tqAdmitGo, if_pos hc, if_pos ht]
        rw [ih _ _ _ _]
        simp
      · simp only [tqAdmitGo, if_pos hc, if_neg ht]
        rw [ih _ _ _ _]
        simp
    · simp only [tqAdmitGo, if_neg hc]

theorem tqAdmitGo_admitted_filter (truthy : α → Bool) (conc : Nat)
    (q : List α) (a : Nat) (f p d ad : List α)
    (h : ad = d.filter truthy) :
    (tqAdmitGo truthy conc q a f p d ad).admitted
      = (tqAdmitGo truthy conc q a f p d ad).dequeued.filter truthy := by
  induction q generalizing a f d ad with
  | nil => simpa using h
  | cons e rest ih =>
    by_cases hc : a < conc
    · by_cases ht : truthy e = true
      · simp only [tqAdmitGo, if_pos hc, if_pos ht]
        exact ih _ _ _ _ (by simp [List.filter_append, h, ht])
      · simp only [tqAdmitGo, if_pos hc, if_neg ht]
        exact ih _ _ _ _ (by simp [List.filter_append, h, ht])
    · simp only [tqAdmitGo, if_neg hc]
      exact h

theorem tqAdmitGo_inflight_truthy (truthy : α → Bool) (conc : Nat)
    (q : List α) (a : Nat) (f p d ad : List α)
    (h : ∀ x ∈ f, truthy x = true) :
    ∀ x ∈ (tqAdmitGo truthy conc q a f p d ad).inflight, truthy x = true := by
  induction q generalizing a f d ad with
  | nil => simpa using h
  | cons e rest ih =>
    by_cases hc : a < conc
    · by_cases ht : truthy e = true
      · simp only [tqAdmitGo, if_pos hc, if_pos ht]
        refine ih _ _ _ _ ?_
        intro x hx
        rcases List.mem_append.mp hx with hx | hx
        · exact h x hx
        · rcases List.mem_singleton.mp hx with rfl
          exact ht
      · simp only [tqAdmitGo, if_pos hc, if_neg ht]
        exact ih _ _ _ _ h
    · simp only [tqAdmitGo, if_neg hc]
      exact h

theorem tqAdmitGo_perm (truthy : α → Bool) (conc : Nat) (q : List α)
    (a : Nat) (f p d ad : List α) (h : (p ++ f).Perm ad) :
    ((tqAdmitGo truthy conc q a f p d ad).processed
        ++ (tqAdmitGo truthy conc q a f p d ad).inflight).Perm
      (tqAdmitGo truthy conc q a f p d ad).admitted := by
  induction q generalizing a f d ad with
  | nil => simpa using h
  | cons e rest ih =>
    by_cases hc : a < conc
    · by_cases ht : truthy e = true
      · simp only [tqAdmitGo, if_pos hc, if_pos ht]
        refine ih _ _ _ _ ?_
        have := h.append_right [e]
        simpa [List.append_assoc] using this
      · simp only [tqAdmitGo, if_pos hc, if_neg ht]
        exact ih _ _ _ _ h
    · simp only [tqAdmitGo, if_neg hc]
      exact h

theorem tqAdmitGo_dequeued_len (truthy : α → Bool) (conc : Nat) (q : List α)
    (a : Nat) (f p d ad : List α) :
    d.length ≤ (tqAdmitGo truthy conc q a f p d ad).dequeued.length := by
  induction q generalizing a f d ad with
  | nil => simp [tqAdmitGo]
  | cons e rest ih =>
    by_cases hc : a < conc
    · by_cases ht : truthy e = true
      · simp only [tqAdmitGo, if_pos hc, if_pos ht]
        calc d.length ≤ (d ++ [e]).length := by simp
          _ ≤ _ := ih _ _ _ _
      · simp only [tqAdmitGo, if_pos hc, if_neg ht]
        calc d.length ≤ (d ++ [e]).length := by simp
          _ ≤ _ := ih _ _ _ _
    · simp only [tqAdmitGo, if_neg hc]
      exact Nat.le_refl _

theorem tqAdmit_fix_queue_nil [DecidableEq α] {truthy : α → Bool} {conc : Nat}
    {s : TQState α} (hfix : tqAdmit truthy conc s = s)
    (ha : s.active < conc) : s.queue = [] := by
  rcases hq : s.queue with _ | ⟨e, rest⟩
  · rfl
  · exfalso
    have hlen : (s.dequeued ++ [e]).length
        ≤ (tqAdmit truthy conc s).dequeued.length := by
      unfold tqAdmit
      rw [hq]
      by_cases ht : truthy e = true
      · simp only [tqAdmitGo, if_pos ha, if_pos ht]
        exact tqAdmitGo_dequeued_len _ _ _ _ _ _ _ _
      · simp only [tqAdmitGo, if_pos ha, if_neg ht]
        exact tqAdmitGo_dequeued_len _ _ _ _ _ _ _ _
    rw [hfix] at hlen
    simp at hlen

theorem tqInv_init [DecidableEq α] (truthy : α → Bool) (conc : Nat)
    (seed : List α) : TQInv truthy conc seed (tqInit seed) := by
  refine ⟨rfl, Nat.zero_le _, rfl, rfl, ?_, ?_, ?_⟩
  · intro e he
    simp [tqInit] at he
  · intro e he
    simp [tqInit] at he
  · intro _
    simp [tqInit]

theorem tqStep_inv [DecidableEq α] {truthy : α → Bool} {conc : Nat}
    {seed : List α} {s t : TQState α} (hstep : TQStep truthy conc s t)
    (hinv : TQInv truthy conc seed s) : TQInv truthy conc seed t := by
  obtain ⟨h1, h2, h3, h4, h5, h6, h7⟩ := hinv
  cases hstep with
  | settle i =>
    refine ⟨settle_active_eq i h1, le_trans (Nat.sub_le _ _) h2, h3, h4,
      ?_, ?_, ?_⟩
    · intro x hx
      exact h5 x ((List.eraseIdx_sublist s.inflight i).subset hx)
    · intro x hx
      rcases mem_setAdd.mp hx with hx | rfl
      · exact h6 x hx
      · exact h5 _ (List.get_mem s.inflight i.1 i.2)
    · intro hnd
      have hperm := h7 hnd
      have hdN : s.dequeued.Nodup := by
        have : (s.dequeued ++ s.queue).Nodup := by rw [h3]; exact hnd
        exact this.of_append_left
      have hadN : s.admitted.Nodup := by
        rw [h4]
        exact hdN.filter _
      have hpfN : (s.processed ++ s.inflight).Nodup := hperm.nodup_iff.mpr hadN
      have hef : s.inflight.get i ∈ s.inflight :=
        List.get_mem s.inflight i.1 i.2
      have hep : s.inflight.get i ∉ s.processed := fun hin =>
        (List.nodup_append.mp hpfN).2.2 hin hef
      have hsa : setAdd s.processed (s.inflight.get i)
          = s.processed ++ [s.inflight.get i] := by
        unfold setAdd
        rw [if_neg hep]
      rw [hsa]
      have hassoc : (s.processed ++ [s.inflight.get i]) ++ s.inflight.eraseIdx i
          = s.processed ++ (s.inflight.get i :: s.inflight.eraseIdx i) := by
        simp
      rw [hassoc]
      exact (List.Perm.append_left s.processed
        (get_cons_eraseIdx_perm s.inflight i)).trans hperm
  | refill =>
    refine ⟨tqAdmitGo_active_eq _ _ _ _ _ _ _ _ h1,
      tqAdmitGo_active_le _ _ _ _ _ _ _ _ h2,
      tqAdmitGo_dequeued_queue _ _ _ _ _ _ _ _ |>.trans h3,
      tqAdmitGo_admitted_filter _ _ _ _ _ _ _ _ h4,
      tqAdmitGo_inflight_truthy _ _ _ _ _ _ _ _ h5,
      ?_, fun hnd => tqAdmitGo_perm _ _ _ _ _ _ _ _ (h7 hnd)⟩
    intro x hx
    unfold tqAdmit at hx
    rw [tqAdmitGo_processed] at hx
    exact h6 x hx

theorem tqReachable_inv [DecidableEq α] {truthy : α → Bool} {conc : Nat}
    {seed : List α} {s : TQState α} (h : TQReachable truthy conc seed s) :
    TQInv truthy conc seed s := by
  induction h with
  | refl => exact tqInv_init truthy conc seed
  | tail _ hstep ih => exact tqStep_inv hstep ih

/-! ## Synchronous run lemmas (C2, C10) -/

theorem processAll_processed_of_nodup [DecidableEq α] (truthy : α → Bool)
    (cb : α → CbResult) (q : List α) :
    ∀ p : List α, q.Nodup → (∀ e ∈ q, truthy e = true) → (∀ e ∈ q, e ∉ p) →
      (processAll truthy cb q p).1 = p ++ q := by
  induction q with
  | nil =>
    intro p _ _ _
    simp [processAll]
  | cons e rest ih =>
    intro p hnd htr hdisj
    have hte : truthy e = true := htr e (by simp)
    have hep : e ∉ p := hdisj e (by simp)
    have hstep : (tasksProcess truthy cb e p).1 = p ++ [e] := by
      simp only [tasksProcess, if_pos hte, setAdd, if_neg hep]
    have h1 : (processAll truthy cb (e :: rest) p).1
        = (processAll truthy cb rest (tasksProcess truthy cb e p).1).1 := rfl
    rw [h1, hstep]
    have htr2 : ∀ x ∈ rest, truthy x = true := fun x hx => htr x (by simp [hx])
    have hdisj2 : ∀ x ∈ rest, x ∉ p ++ [e] := by
      intro x hx hmem
      rcases List.mem_append.mp hmem with h | h
      · exact hdisj x (by simp [hx]) h
      · rcases List.mem_singleton.mp h with rfl
        exact (List.nodup_cons.mp hnd).1 hx
    rw [ih (p ++ [e]) (List.nodup_cons.mp hnd).2 htr2 hdisj2]
    simp

theorem processAll_truthy_only [DecidableEq α] (truthy : α → Bool)
    (cb : α → CbResult) (q : List α) :
    ∀ p : List α, (∀ e ∈ p, truthy e = true) →
      (∀ e ∈ (processAll truthy cb q p).1, truthy e = true) ∧
      (∀ ev ∈ (processAll truthy cb q p).2, truthy ev.2 = true) := by
  induction q with
  | nil =>
    intro p hp
    exact ⟨hp, by simp [processAll]⟩
  | cons e rest ih =>
    intro p hp
    have hfst : (processAll truthy cb (e :: rest) p).1
        = (processAll truthy cb rest (tasksProcess truthy cb e p).1).1 := rfl
    have hsnd : (processAll truthy cb (e :: rest) p).2
        = (tasksProcess truthy cb e p).2
          ++ (processAll truthy cb rest (tasksProcess truthy cb e p).1).2 := rfl
    by_cases hte : truthy e = true
    · have hstep1 : (tasksProcess truthy cb e p).1 = setAdd p e := by
        simp only [tasksProcess, if_pos hte]
      have hstep2 : (tasksProcess truthy cb e p).2
          = (taskBodyEvents (cb e)).map (fun k => (k, e)) := by
        simp only [tasksProcess, if_pos hte]
      have hp2 : ∀ x ∈ setAdd p e, truthy x = true := by
        intro x hx
        rcases mem_setAdd.mp hx with hx | rfl
        · exact hp x hx
        · exact hte
      constructor
      · rw [hfst, hstep1]
        exact (ih (setAdd p e) hp2).1
      · rw [hsnd, hstep1, hstep2]
        intro ev hev
        rcases List.mem_append.mp hev with h | h
        · rcases List.mem_map.mp h with ⟨k, _, rfl⟩
          exact hte
        · exact (ih (setAdd p e) hp2).2 ev h
    · have hstep1 : (tasksProcess truthy cb e p).1 = p := by
        simp only [tasksProcess, if_neg hte]
      have hstep2 : (tasksProcess truthy cb e p).2 = [] := by
        simp only [tasksProcess, if_neg hte]
      constructor
      · rw [hfst, hstep1]
        exact (ih p hp).1
      · rw [hsnd, hstep1, hstep2]
        simpa using (ih p hp).2

theorem tqAdmitGo_all_admitted (truthy : α → Bool) (conc : Nat) (q : List α)
    (a : Nat) (f p d ad : List α) (htr : ∀ e ∈ q, truthy e = true)
    (hlen : a + q.length ≤ conc) :
    (tqAdmitGo truthy conc q a f p d ad).admitted = ad ++ q := by
  induction q generalizing a f d ad with
  | nil => simp [tqAdmitGo]
  | cons e rest ih =>
    rw [List.length_cons] at hlen
    have hc : a < conc := by omega
    have hte : truthy e = true := htr e (by simp)
    simp only [tqAdmitGo, if_pos hc, if_pos hte]
    rw [ih _ _ _ _ (fun x hx => htr x (by simp [hx])) (by omega)]
    simp

/-! ## Theorems for the scheduler claims (C3, C2, C7, C10) -/

/-- C3: at every observable instant of the asynchronous drains —
`Processing.asyncRun` in its `default` and `race` modes and
`TaskQueue.asyncRun`, under every interleaving of operation settlements —
`activeCount` equals the number of in-flight (admitted but unsettled)
operations and is at most `concurrency`; it is nonnegative by construction
(the counters are natural numbers mirroring a set size). -/
theorem processing_activeCount_invariant [DecidableEq α] (truthy : α → Bool)
    (conc : Nat) (elements seed : List α) (s t : PState α) (u : TQState α)
    (hs : PReachable conc elements s) (ht : PRaceReachable conc elements t)
    (hu : TQReachable truthy conc seed u) :
    (s.active = s.inflight.length ∧ s.active ≤ conc) ∧
    (t.active = t.inflight.length ∧ t.active ≤ conc) ∧
    (u.active = u.inflight.length ∧ u.active ≤ conc) := by
  refine ⟨pReachable_inv hs, pRaceReachable_inv ht, ?_⟩
  obtain ⟨h1, h2, _⟩ := tqReachable_inv hu
  exact ⟨h1, h2⟩

/-- C3 witness for `processing_activeCount_invariant`: the initial states of
the three drains on concrete inputs, reachable in zero steps. -/
theorem processing_activeCount_invariant_witness :
    (((⟨[1, 2, 3], 0, [], []⟩ : PState Int).active
        = (⟨[1, 2, 3], 0, [], []⟩ : PState Int).inflight.length ∧
      (⟨[1, 2, 3], 0, [], []⟩ : PState Int).active ≤ 2) ∧
     ((⟨[1, 2, 3], 0, [], []⟩ : PState Int).active
        = (⟨[1, 2, 3], 0, [], []⟩ : PState Int).inflight.length ∧
      (⟨[1, 2, 3], 0, [], []⟩ : PState Int).active ≤ 2) ∧
     ((tqInit [(4 : Int), 5]).active = (tqInit [(4 : Int), 5]).inflight.length ∧
      (tqInit [(4 : Int), 5]).active ≤ 2)) :=
  processing_activeCount_invariant intTruthy 2 [1, 2, 3] [(4 : Int), 5]
    ⟨[1, 2, 3], 0, [], []⟩ ⟨[1, 2, 3], 0, [], []⟩ (tqInit [(4 : Int), 5])
    Relation.ReflTransGen.refl Relation.ReflTransGen.refl
    Relation.ReflTransGen.refl

/-- C2 counterexample: a `TaskQueue` seeded with the single falsy item `0`
runs to completion with `processed.size = 0`, not 1 (the item is dropped by
the `if (element)` guard); a seed with the duplicate items `[1, 1]` completes
with `processed.size = 1`, not 2 (`#processed` is a JS `Set`). -/
theorem taskQueue_conservation_cex :
    ((processAll intTruthy (fun _ => CbResult.ret none) [(0 : Int)] []).1.length = 0
      ∧ (0 : Nat) ≠ 1) ∧
    ((processAll intTruthy (fun _ => CbResult.ret none) [(1 : Int), 1] []).1.length = 1
      ∧ (1 : Nat) ≠ 2) := by
  decide

/-- C2 (amended): for a `TaskQueue` seeded with `N` distinct truthy items and
run to completion — by the synchronous `run`, or by `asyncRun` (any
settlement interleaving, concurrency at least 1) — the processed set has
size `N` and the queue length is 0. -/
theorem taskQueue_conservation [DecidableEq α] (truthy : α → Bool)
    (cb : α → CbResult) (conc : Nat) (seed : List α)
    (hnd : seed.Nodup) (htr : ∀ e ∈ seed, truthy e = true) (hconc : 1 ≤ conc) :
    (processAll truthy cb seed []).1.length = seed.length ∧
    (∀ s : TQState α, TQReachable truthy conc seed s →
      tqCompleted truthy conc s →
      s.queue = [] ∧ s.processed.length = seed.length) := by
  constructor
  · rw [processAll_processed_of_nodup truthy cb seed [] hnd htr (by simp)]
    simp
  · intro s hreach hcomp
    obtain ⟨h1, h2, h3, h4, h5, h6, h7⟩ := tqReachable_inv hreach
    obtain ⟨hfl, hfix⟩ := hcomp
    have hact : s.active = 0 := by simp [h1, hfl]
    have hq : s.queue = [] := tqAdmit_fix_queue_nil hfix (by omega)
    refine ⟨hq, ?_⟩
    have hperm := h7 hnd
    rw [hfl] at hperm
    have hdeq : s.dequeued = seed := by
      rw [← h3, hq]
      simp
    have hadm : s.admitted = seed := by
      rw [h4, hdeq]
      exact List.filter_eq_self.mpr htr
    have hlen := hperm.length_eq
    simpa [hadm] using hlen

/-- C2 witness for `taskQueue_conservation`: the seed `[1, 2, 3]` (distinct,
truthy) with concurrency 2. -/
theorem taskQueue_conservation_witness :
    List.Nodup [(1 : Int), 2, 3] ∧ (∀ e ∈ [(1 : Int), 2, 3], intTruthy e = true) ∧
    (1 : Nat) ≤ 2 ∧
    ((processAll intTruthy (fun _ => CbResult.ret none) [(1 : Int), 2, 3] []).1.length = 3 ∧
      (∀ s : TQState Int, TQReachable intTruthy 2 [(1 : Int), 2, 3] s →
        tqCompleted intTruthy 2 s →
        s.queue = [] ∧ s.processed.length = 3)) :=
  ⟨by decide, by decide, by decide,
    taskQueue_conservation intTruthy (fun _ => CbResult.ret none) 2 [(1 : Int), 2, 3]
      (by decide) (by decide) (by decide)⟩

/-- C7 counterexample: the seed `[0, 1]` with concurrency `2 ≥ N = 2` reaches
the completed state in two steps (one refill, one settlement), but the falsy
element `0` is dequeued without ever being admitted, so the admission history
is `[1]`, not the enqueue order `[0, 1]`. -/
theorem taskQueue_fifo_admission_cex :
    TQReachable intTruthy 2 [0, 1]
      (⟨[], 0, [], [1], [0, 1], [1]⟩ : TQState Int) ∧
    tqCompleted intTruthy 2 (⟨[], 0, [], [1], [0, 1], [1]⟩ : TQState Int) ∧
    (⟨[], 0, [], [1], [0, 1], [1]⟩ : TQState Int).admitted ≠ [0, 1] := by
  have hstep1 : TQStep intTruthy 2 (tqInit [0, 1])
      (⟨[], 1, [1], [], [0, 1], [1]⟩ : TQState Int) := by
    have h : tqAdmit intTruthy 2 (tqInit [0, 1])
        = (⟨[], 1, [1], [], [0, 1], [1]⟩ : TQState Int) := by decide
    exact h ▸ TQStep.refill (tqInit [0, 1])
  have hstep2 : TQStep intTruthy 2 (⟨[], 1, [1], [], [0, 1], [1]⟩ : TQState Int)
      (⟨[], 0, [], [1], [0, 1], [1]⟩ : TQState Int) :=
    TQStep.settle _ ⟨0, by decide⟩
  refine ⟨Relation.ReflTransGen.tail
    (Relation.ReflTransGen.tail Relation.ReflTransGen.refl hstep1) hstep2,
    ⟨rfl, by decide⟩, by decide⟩

/-- C7 (amended): during `TaskQueue.asyncRun` the admission history always
equals the dequeue history restricted to truthy elements, in dequeue order;
in particular, after the initial admission loop on a seed of `N` truthy items
with concurrency ≥ `N` — and likewise in any completed state with
concurrency ≥ 1 — the admission order equals the enqueue order.  Falsy items
are dequeued but skipped, so for them admission does not happen at all. -/
theorem taskQueue_fifo_admission [DecidableEq α] (truthy : α → Bool)
    (conc : Nat) (seed : List α) (s : TQState α)
    (hs : TQReachable truthy conc seed s) :
    s.admitted = s.dequeued.filter truthy ∧
    ((∀ e ∈ seed, truthy e = true) → seed.length ≤ conc →
      (tqAdmit truthy conc (tqInit seed)).admitted = seed) ∧
    ((∀ e ∈ seed, truthy e = true) → 1 ≤ conc → tqCompleted truthy conc s →
      s.admitted = seed) := by
  obtain ⟨h1, h2, h3, h4, h5, h6, h7⟩ := tqReachable_inv hs
  refine ⟨h4, ?_, ?_⟩
  · intro htr hlen
    unfold tqAdmit tqInit
    have h := tqAdmitGo_all_admitted truthy conc seed 0 [] [] [] [] htr
      (by simpa using hlen)
    simpa using h
  · intro htr hone hcomp
    obtain ⟨hfl, hfix⟩ := hcomp
    have hact : s.active = 0 := by simp [h1, hfl]
    have hq : s.queue = [] := tqAdmit_fix_queue_nil hfix (by omega)
    have hdeq : s.dequeued = seed := by
      rw [← h3, hq]
      simp
    rw [h4, hdeq]
    exact List.filter_eq_self.mpr htr

/-- C7 witness for `taskQueue_fifo_admission`: the all-truthy seed `[1, 2, 3]`
with concurrency 3 at the initial state, plus the instantiated consequence
that the initial admission loop admits in enqueue order. -/
theorem taskQueue_fifo_admission_witness :
    (tqInit [(1 : Int), 2, 3]).admitted
        = (tqInit [(1 : Int), 2, 3]).dequeued.filter intTruthy ∧
    (tqAdmit intTruthy 3 (tqInit [(1 : Int), 2, 3])).admitted = [1, 2, 3] :=
  ⟨(taskQueue_fifo_admission intTruthy 3 [(1 : Int), 2, 3]
      (tqInit [(1 : Int), 2, 3]) Relation.ReflTransGen.refl).1,
   (taskQueue_fifo_admission intTruthy 3 [(1 : Int), 2, 3]
      (tqInit [(1 : Int), 2, 3]) Relation.ReflTransGen.refl).2.1
      (by decide) (by decide)⟩

/-- C10: falsy elements are removed from the queue but never admitted, never
in flight, never processed (asynchronous drain), and in the synchronous run
neither the callback nor any outcome handler ever fires on a falsy element
and none joins the processed set; the queue still drains to empty. -/
theorem taskQueue_falsy_dropped [DecidableEq α] (truthy : α → Bool)
    (cb : α → CbResult) (conc : Nat) (seed : List α) (s : TQState α)
    (hs : TQReachable truthy conc seed s) :
    (∀ e, truthy e = false →
      e ∉ s.admitted ∧ e ∉ s.inflight ∧ e ∉ s.processed) ∧
    (1 ≤ conc → tqCompleted truthy conc s → s.queue = []) ∧
    (∀ ev ∈ (processAll truthy cb seed []).2, truthy ev.2 = true) ∧
    (∀ e ∈ (processAll truthy cb seed []).1, truthy e = true) := by
  obtain ⟨h1, h2, h3, h4, h5, h6, h7⟩ := tqReachable_inv hs
  refine ⟨?_, ?_, ?_, ?_⟩
  · intro e hef
    refine ⟨?_, ?_, ?_⟩
    · intro hmem
      rw [h4] at hmem
      have hft := List.of_mem_filter hmem
      rw [hef] at hft
      exact absurd hft (by simp)
    · intro hmem
      exact absurd (h5 e hmem) (by simp [hef])
    · intro hmem
      exact absurd (h6 e hmem) (by simp [hef])
  · intro hone hcomp
    obtain ⟨hfl, hfix⟩ := hcomp
    have hact : s.active = 0 := by simp [h1, hfl]
    exact tqAdmit_fix_queue_nil hfix (by omega)
  · exact (processAll_truthy_only truthy cb seed [] (by simp)).2
  · exact (processAll_truthy_only truthy cb seed [] (by simp)).1

/-- C10 witness for `taskQueue_falsy_dropped`: the seed `[0, 1]` at the
initial state — the falsy `0` is in no admission set, and the synchronous run
fires events only on truthy elements. -/
theorem taskQueue_falsy_dropped_witness :
    (0 : Int) ∉ (tqInit [(0 : Int), 1]).admitted ∧
    (∀ ev ∈ (processAll intTruthy (fun _ => CbResult.ret none) [(0 : Int), 1] []).2,
      intTruthy ev.2 = true) :=
  ⟨((taskQueue_falsy_dropped intTruthy (fun _ => CbResult.ret none) 1
      [(0 : Int), 1] (tqInit [(0 : Int), 1]) Relation.ReflTransGen.refl).1
      0 (by decide)).1,
   (taskQueue_falsy_dropped intTruthy (fun _ => CbResult.ret none) 1
      [(0 : Int), 1] (tqInit [(0 : Int), 1]) Relation.ReflTransGen.refl).2.2.1⟩

end QueueSpec
